import Mathlib

/-!
Shallow embedding of the split utilities and the Mixhop-style synthetic graph
generator of this repository (`generate_mixhop_data.py` and
`BernNet/train_opengsldata.py`).

Conventions of the embedding:
* Python exceptions (ZeroDivisionError, numpy probability/size errors, list
  IndexError) are modelled with `Except Err`; a plain `return` with no value
  (Python `None`) is modelled as `Option.none` inside a successful result.
* The global numpy random state is modelled as `Rng`: an infinite stream of
  naturals together with a cursor, consumed one draw at a time.  A weighted
  `np.random.choice(a, k, replace=False, p)` call is modelled by an
  stream-driven selection without replacement over exactly those candidates
  that carry positive probability; entries of probability zero are never
  returned by numpy, and numpy raises when fewer than `k` entries have
  positive probability.  The stream decides which positive-probability
  candidate is taken, so every structural property (support, distinctness,
  cardinality, failure conditions) is that of the source.
* Python floats are modelled by exact rationals `ℚ`.  All quantities the
  claims depend on are sums, products and comparisons of small rationals;
  the one caveat (floor of `0.6 * n` under binary floating point versus
  exact arithmetic, which can differ by one) only moves a cut index and is
  never load-bearing for a claim.
-/

unseal Rat.add Rat.mul Rat.inv Rat.sub

namespace Mixhop

/-- Python exceptions that the embedded code can raise:
ZeroDivisionError, numpy probability errors ("probabilities are not
non-negative", bad probability vector), numpy sampling errors ("a must be
non-empty" / "fewer non-zero entries in p than size"), and list IndexError. -/
inductive Err where
  | zeroDiv
  | badProb
  | fewPositive
  | indexError
  deriving DecidableEq

/-- Pseudo-random source: an infinite stream of naturals with a cursor.
Models the global numpy `RandomState` (respectively the `random` module
state after `random.seed`), consumed call by call. -/
structure Rng where
  seq : Nat → Nat
  pos : Nat

/-- Draw one raw value from the stream and advance the cursor. -/
def Rng.next (r : Rng) : Nat × Rng := (r.seq r.pos, ⟨r.seq, r.pos + 1⟩)

/-- The all-zero stream, used for concrete runs. -/
def rng0 : Rng := ⟨fun _ => 0, 0⟩

/-- Checks that a weight list is a valid numpy probability vector:
all entries non-negative and summing to 1 (`np.random.choice` raises
otherwise). -/
def probOk (ratios : List ℚ) : Bool :=
  ratios.all (fun p => decide (0 ≤ p)) && decide (ratios.sum = 1)

/-- The 1-based classes of positive probability: the support of the class
distribution.  `np.random.choice` never returns an entry whose probability
is zero. -/
def posClasses (ratios : List ℚ) : List ℤ :=
  ((List.range ratios.length).filter
    (fun k => decide (0 < ratios.getD k 0))).map (fun k => Int.ofNat k + 1)

/-- `get_color(class_ratio)` from `generate_mixhop_data.py`:
`np.random.choice(range(1, len(class_ratio) + 1), 1, False, class_ratio)[0]`.
The stream picks which positive-probability class comes out. -/
def get_color (ratios : List ℚ) (r : Rng) : Except Err (ℤ × Rng) :=
  if probOk ratios then
    let cands := posClasses ratios
    let (x, r') := r.next
    .ok (cands.getD (x % cands.length) 0, r')
  else .error .badProb

/-- `color_weight(col1, col2, exponent, class_ratio, opposite_side_class_weight)`
from `generate_mixhop_data.py`.  `dist` is the circular class distance on the
ring of `len(class_ratio)` classes.  The guard `dist == len(class_ratio) / 2`
of the source compares the integer `dist` with the true half of the class
count, i.e. it holds exactly when `2 * dist` equals the class count.  The
power `exponent ** (len(class_ratio) / 2 - dist)` has an integer exponent
exactly when the class count is even (the repository comments and the spec
restrict to even class counts; odd counts would take real powers and are
declared unsupported). -/
def color_weight (col1 col2 : ℤ) (expo : ℚ) (ratios : List ℚ) (w : ℚ) : ℚ :=
  let c : ℤ := ratios.length
  let d0 : ℤ := |col1 - col2|
  let dist : ℤ := min d0 (c - d0)
  if 2 * dist = c then w
  else expo ^ ((c - 2 * dist) / 2) * w

/-- A node list (`(node id, color)` in insertion order) together with an edge
list (in insertion order, each undirected edge stored once, as passed to
`add_edge`).  Models the `networkx.Graph` with its `color` node attribute. -/
structure Graph where
  nodes : List (Nat × ℤ)
  edges : List (Nat × Nat)
  deriving DecidableEq

/-- Node identifiers in insertion order (`G.nodes()`). -/
def Graph.nodeIds (g : Graph) : List Nat := g.nodes.map Prod.fst

/-- Membership test for a node id. -/
def Graph.hasNode (g : Graph) (v : Nat) : Bool :=
  g.nodes.any (fun p => p.1 == v)

/-- `G.add_node(v, color=c)`: refreshes the attribute if the node exists,
otherwise appends a new node. -/
def Graph.add_node (g : Graph) (v : Nat) (c : ℤ) : Graph :=
  if g.hasNode v then
    ⟨g.nodes.map (fun p => if p.1 == v then (v, c) else p), g.edges⟩
  else ⟨g.nodes ++ [(v, c)], g.edges⟩

/-- `G.nodes[v]["color"]`.  The scripts only read colors of nodes created by
`add_node`, so the fallback value 0 (for a node created bare by `add_edge`,
whose attribute access would raise `KeyError`) is never observable. -/
def Graph.colorOf (g : Graph) (v : Nat) : ℤ :=
  match g.nodes.find? (fun p => p.1 == v) with
  | some p => p.2
  | none => 0

/-- Undirected membership test for an edge. -/
def Graph.hasEdge (g : Graph) (a b : Nat) : Bool :=
  g.edges.any (fun e => (e.1 == a && e.2 == b) || (e.1 == b && e.2 == a))

/-- `G.add_edge(a, b)`: inserts missing endpoints (bare, no color attribute;
color 0 stands for the absent attribute) and adds the undirected edge if it
is not already present. -/
def Graph.add_edge (g : Graph) (a b : Nat) : Graph :=
  let g1 := if g.hasNode a then g else g.add_node a 0
  let g2 := if g1.hasNode b then g1 else g1.add_node b 0
  if g2.hasEdge a b then g2 else ⟨g2.nodes, g2.edges ++ [(a, b)]⟩

/-- `G.degree(v)`: the number of stored edges incident to `v`.  No self-loops
ever arise in the scripts, so counting an incident edge once is the
`networkx` degree. -/
def Graph.degree (g : Graph) (v : Nat) : Nat :=
  (g.edges.filter (fun e => e.1 == v || e.2 == v)).length

/-- The attachment weight `pr[v]` computed inside `get_neighbours`:
`degree(v) * h` for a same-colored node and
`degree(v) * (1 - h) * color_weight(col, color(v), ...)` otherwise. -/
def attach_weight (g : Graph) (col : ℤ) (hom expo : ℚ) (ratios : List ℚ)
    (w : ℚ) (v : Nat) : ℚ :=
  if g.colorOf v = col then (g.degree v : ℚ) * hom
  else (g.degree v : ℚ) * ((1 - hom) * color_weight col (g.colorOf v) expo ratios w)

/-- `norm_pr = float(sum(pr.values()))` of `get_neighbours`. -/
def total_weight (g : Graph) (col : ℤ) (hom expo : ℚ) (ratios : List ℚ)
    (w : ℚ) : ℚ :=
  (g.nodeIds.map (attach_weight g col hom expo ratios w)).sum

/-- Remove-one selection: draw a stream value, reduce it modulo the number of
candidates, return that candidate and the list with it removed. -/
def pickOne (l : List Nat) (r : Rng) : (Nat × List Nat) × Rng :=
  let (x, r') := r.next
  let i := x % l.length
  ((l.getD i 0, l.take i ++ l.drop (i + 1)), r')

/-- Sampling without replacement: `k` successive remove-one selections.
Callers establish `k ≤ l.length` beforehand (numpy raises otherwise). -/
def sampleWR : Nat → List Nat → Rng → List Nat × Rng
  | 0, _, r => ([], r)
  | k + 1, l, r =>
    let ((a, rest), r') := pickOne l r
    let (as, r'') := sampleWR k rest r'
    (a :: as, r'')

/-- `get_neighbours(G, m, col, h, exponent, class_ratio, opposite_side_class_weight)`
from `generate_mixhop_data.py`.  The source computes `pr`, divides every entry
by `norm_pr` (a Python-float ZeroDivisionError when the graph is non-empty and
the sum is zero), and calls `np.random.choice(keys, m, False, probs)`, which
raises on an empty population, on a negative probability, or when fewer than
`m` entries have positive probability, and otherwise returns `m` distinct
positive-probability keys. -/
def get_neighbours (g : Graph) (m : Nat) (col : ℤ) (hom expo : ℚ)
    (ratios : List ℚ) (w : ℚ) (r : Rng) : Except Err (List Nat × Rng) :=
  let keys := g.nodeIds
  let norm := total_weight g col hom expo ratios w
  if keys = [] then .error .fewPositive
  else if norm = 0 then .error .zeroDiv
  else if keys.any
      (fun v => decide (attach_weight g col hom expo ratios w v / norm < 0)) then
    .error .badProb
  else
    let cands := keys.filter
      (fun v => decide (0 < attach_weight g col hom expo ratios w v / norm))
    if cands.length < m then .error .fewPositive
    else .ok (sampleWR m cands r)

/-- One iteration `v` of the initialization loop of `generate_graph`:
`G.add_node(v, color=get_color(class_ratio))` and, for `v > 1`,
`G.add_edge(v, v - 1)`. -/
def initStep (ratios : List ℚ) (g : Graph) (v : Nat) (r : Rng) :
    Except Err (Graph × Rng) :=
  match get_color ratios r with
  | .error e => .error e
  | .ok (c, r') =>
    let g1 := g.add_node v c
    .ok (if v > 1 then g1.add_edge v (v - 1) else g1, r')

/-- The edge insertions `for u in us: G.add_edge(v, u)` of a growth step. -/
def addEdgesFrom (g : Graph) (v : Nat) : List Nat → Graph
  | [] => g
  | u :: us => addEdgesFrom (g.add_edge v u) v us

/-- One iteration `v` of the growth loop of `generate_graph`: draw the color,
sample `m` neighbours of the current graph, add the node, add the edges. -/
def growStep (m : Nat) (hom expo : ℚ) (ratios : List ℚ) (w : ℚ)
    (g : Graph) (v : Nat) (r : Rng) : Except Err (Graph × Rng) :=
  match get_color ratios r with
  | .error e => .error e
  | .ok (col, r1) =>
    match get_neighbours g m col hom expo ratios w r1 with
    | .error e => .error e
    | .ok (us, r2) => .ok (addEdgesFrom (g.add_node v col) v us, r2)

/-- Runs `step` on indices `v, v + 1, ..., v + k - 1`, threading graph and
random state, propagating the first exception. -/
def loopFrom (step : Graph → Nat → Rng → Except Err (Graph × Rng)) :
    Nat → Nat → Graph → Rng → Except Err (Graph × Rng)
  | _, 0, g, r => .ok (g, r)
  | v, k + 1, g, r =>
    match step g v r with
    | .error e => .error e
    | .ok (g', r') => loopFrom step (v + 1) k g' r'

/-- The initialization phase of `generate_graph`: `for v in range(m0)`. -/
def init_graph (ratios : List ℚ) (m0 : Nat) (r : Rng) :
    Except Err (Graph × Rng) :=
  loopFrom (initStep ratios) 0 m0 ⟨[], []⟩ r

/-- `generate_graph(n, m, m0, h, class_ratio, exponent, opposite_side_class_weight)`
from `generate_mixhop_data.py`.  `if m > n: return` yields Python `None`,
modelled as `Option.none`; otherwise the initialization loop `range(m0)` and
the growth loop `range(m0, n)` run in sequence. -/
def generate_graph (n m m0 : Nat) (hom : ℚ) (ratios : List ℚ) (expo w : ℚ)
    (r : Rng) : Except Err (Option Graph × Rng) :=
  if n < m then .ok (none, r)
  else
    match init_graph ratios m0 r with
    | .error e => .error e
    | .ok (g, r1) =>
      match loopFrom (growStep m hom expo ratios w) m0 (n - m0) g r1 with
      | .error e => .error e
      | .ok (g2, r2) => .ok (some g2, r2)

/-- Recognizes the Python-`None` return of `generate_graph`. -/
def isNoneReturn : Except Err (Option Graph × Rng) → Bool
  | .ok (none, _) => true
  | _ => false

/-- Python `int(q)`: truncation toward zero. -/
def pyInt (q : ℚ) : ℤ := if 0 ≤ q then ⌊q⌋ else -⌊-q⌋

/-- Python list slicing `l[a:b]` with its negative-index and clamping
semantics. -/
def pySlice {α : Type} (l : List α) (a b : ℤ) : List α :=
  let n : ℤ := l.length
  let a' := (min (max (if a < 0 then a + n else a) 0) n).toNat
  let b' := (min (max (if b < 0 then b + n else b) 0) n).toNat
  (l.take b').drop a'

/-- `get_order(ratio, masked_index, total_node_num, seed)` from
`BernNet/train_opengsldata.py`.  `random.seed(seed)` followed by
`random.shuffle` is modelled by Fisher–Yates driven by the stream
`prng seed`, where `prng` stands for the `random`-module generator.
`total_node_num` is accepted and ignored exactly as in the source.
The division `i / tvt_sum` raises ZeroDivisionError when the ratio list sums
to zero, and `tvt_ratio_list[1]` raises IndexError on a ratio list shorter
than two.  The four `assert` statements of the source build Python sets of
`torch.Tensor` elements; tensors hash by object identity, every iteration
yields fresh objects, so each `set(...)` has one member per element and the
set differences remove nothing: the asserts can never fail, whatever the
index values are, and are therefore modelled as no-ops. -/
def get_order (prng : Nat → Nat → Nat) (ratios : List ℚ) (masked : List ℤ)
    (_total : Nat) (seed : Nat) : Except Err (List ℤ × List ℤ × List ℤ) :=
  let n := masked.length
  let (shuffled, _) := sampleWR n (List.range n) ⟨prng seed, 0⟩
  if ratios.sum = 0 then .error .zeroDiv
  else if ratios.length < 2 then .error .indexError
  else
    let s := ratios.sum
    let a : ℤ := pyInt ((ratios.getD 0 0 / s) * n)
    let b : ℤ := a + pyInt ((ratios.getD 1 0 / s) * n)
    let trainPos := pySlice shuffled 0 a
    let valPos := pySlice shuffled a b
    let testPos := pySlice shuffled b (n : ℤ)
    .ok (trainPos.map (fun i => masked.getD i 0),
         valPos.map (fun i => masked.getD i 0),
         testPos.map (fun i => masked.getD i 0))

/-- Positions of the nodes bearing class `i`:
`(labels == i).nonzero()[0]`, in increasing order. -/
def classIndex (labels : List ℤ) (i : ℤ) : List Nat :=
  (List.range labels.length).filter (fun j => labels.getD j 0 == i)

/-- Threads the random state through a list of per-class draws. -/
def mapRng (f : ℤ → Rng → List Nat × Rng) :
    List ℤ → Rng → List (List Nat) × Rng
  | [], r => ([], r)
  | a :: as, r =>
    let (b, r') := f a r
    let (bs, r'') := mapRng f as r'
    (b :: bs, r'')

/-- `int(len * 0.6)` of `random_disassortative_splits`. -/
def trainCut (len : Nat) : Nat := (pyInt ((len : ℚ) * (3 / 5))).toNat

/-- `int(len * 0.8)` of `random_disassortative_splits`. -/
def valCut (len : Nat) : Nat := (pyInt ((len : ℚ) * (4 / 5))).toNat

/-- `random_disassortative_splits(labels, num_classes)` from
`generate_mixhop_data.py`: per class, shuffle the class's positions
(`index[np.random.permutation(index.size)]`) and slice 60/20/20 by floor;
the three accumulators extend class by class in order. -/
def random_disassortative_splits (labels : List ℤ) (num_classes : Nat)
    (r : Rng) : (List Nat × List Nat × List Nat) × Rng :=
  let (idxs, r') := mapRng
    (fun i rr => sampleWR (classIndex labels i).length (classIndex labels i) rr)
    ((List.range num_classes).map (fun k => (k : ℤ))) r
  (((idxs.map (fun l => l.take (trainCut l.length))).flatten,
    (idxs.map (fun l => (l.take (valCut l.length)).drop (trainCut l.length))).flatten,
    (idxs.map (fun l => l.drop (valCut l.length))).flatten),
   r')

/-- The index universe of the per-class split: all positions whose label is
one of the classes `0, ..., num_classes - 1`. -/
def labeledIdx (labels : List ℤ) (num_classes : Nat) : List Nat :=
  (List.range labels.length).filter
    (fun j => decide (0 ≤ labels.getD j 0) && decide (labels.getD j 0 < (num_classes : ℤ)))

/-- The initialization edges: `(v, v - 1)` for `v = 2, ..., m0 - 1`. -/
def pathEdges (m0 : Nat) : List (Nat × Nat) :=
  (List.range (m0 - 2)).map (fun j => (j + 2, j + 1))

/-- A color legal for the class distribution: 1-based, in range, and of
positive probability. -/
def colOk (ratios : List ℚ) (c : ℤ) : Prop :=
  1 ≤ c ∧ c ≤ (ratios.length : ℤ) ∧ 0 < ratios.getD (c - 1).toNat 0

/-- An additive PRNG stand-in used for concrete witness runs of `get_order`. -/
def prng0 : Nat → Nat → Nat := fun s k => s + k

/-- Invariant maintained while `generate_graph` builds the graph: node ids are
exactly `0, ..., v - 1` in insertion order; no duplicate edges; every stored
edge joins two already-created nodes, neither of which is node 0; and every
grown node `u` of `[m0, v)` owns exactly `m` stored edges `(u, _)` — the
edges added at its creation step. -/
def Inv (m m0 v : Nat) (g : Graph) : Prop :=
  g.nodeIds = List.range v ∧
  g.edges.Nodup ∧
  (∀ e ∈ g.edges, 0 < e.1 ∧ e.1 < v ∧ 0 < e.2 ∧ e.2 < v) ∧
  (∀ u, m0 ≤ u → u < v → (g.edges.filter (fun e => e.1 == u)).length = m)

/-- Invariant of the initialization loop: node ids are `0, ..., v - 1`, the
edges are exactly the path edges `(2,1), ..., (v-1, v-2)`, and every stored
color is a legal draw from the class distribution. -/
def InvInit (ratios : List ℚ) (v : Nat) (g : Graph) : Prop :=
  g.nodeIds = List.range v ∧
  g.edges = pathEdges v ∧
  (∀ p ∈ g.nodes, colOk ratios p.2)

/-- A concrete 50-node reference run (all-zero stream), used as a witness. -/
def res50 : Except Err (Option Graph × Rng) :=
  generate_graph 50 6 40 (1/2) [1/2, 1/2] 2 1 rng0

/-- The graph produced by the reference run `res50`. -/
def g50 : Graph :=
  match res50 with
  | .ok (some g, _) => g
  | _ => ⟨[], []⟩

/-! ### Sampling without replacement -/

theorem pickOne_cons_perm (l : List Nat) (r : Rng) (hne : l ≠ []) :
    l.Perm ((pickOne l r).1.1 :: (pickOne l r).1.2) := by
  have hlen : 0 < l.length := List.length_pos.mpr hne
  have hi : r.next.1 % l.length < l.length := Nat.mod_lt _ hlen
  show l.Perm (l.getD (r.next.1 % l.length) 0 ::
    (l.take (r.next.1 % l.length) ++ l.drop (r.next.1 % l.length + 1)))
  have hget : l.getD (r.next.1 % l.length) 0 = l.get ⟨r.next.1 % l.length, hi⟩ := by
    simp [List.getD_eq_getElem?_getD, List.getElem?_eq_getElem hi]
  rw [hget]
  have hsplit : l = l.take (r.next.1 % l.length) ++
      (l.get ⟨r.next.1 % l.length, hi⟩ :: l.drop (r.next.1 % l.length + 1)) := by
    conv_lhs => rw [← List.take_append_drop (r.next.1 % l.length) l]
    rw [List.drop_eq_getElem_cons hi]
    rfl
  have hstep : l.Perm (l.take (r.next.1 % l.length) ++
      (l.get ⟨r.next.1 % l.length, hi⟩ :: l.drop (r.next.1 % l.length + 1))) := by
    rw [← hsplit]
  exact hstep.trans List.perm_middle

theorem sampleWR_length (k : Nat) (l : List Nat) (r : Rng) :
    (sampleWR k l r).1.length = k := by
  induction k generalizing l r with
  | zero => rfl
  | succ k ih => simp [sampleWR, ih]

theorem sampleWR_perm (k : Nat) (l : List Nat) (r : Rng) (hk : k = l.length) :
    (sampleWR k l r).1.Perm l := by
  induction k generalizing l r with
  | zero =>
    obtain rfl : l = [] := by
      cases l with
      | nil => rfl
      | cons a t => simp at hk
    exact List.Perm.refl _
  | succ k ih =>
    have hne : l ≠ [] := by
      intro h
      rw [h] at hk
      simp at hk
    have hperm := pickOne_cons_perm l r hne
    have hrest : k = (pickOne l r).1.2.length := by
      have := hperm.length_eq
      simp at this
      omega
    simp only [sampleWR]
    exact ((ih _ _ hrest).cons _).trans hperm.symm

theorem sampleWR_sub_nodup (k : Nat) (l : List Nat) (r : Rng)
    (hk : k ≤ l.length) (hnd : l.Nodup) :
    (sampleWR k l r).1.Nodup ∧ ∀ u ∈ (sampleWR k l r).1, u ∈ l := by
  induction k generalizing l r with
  | zero => simp [sampleWR]
  | succ k ih =>
    have hne : l ≠ [] := by
      intro h
      rw [h] at hk
      simp at hk
    have hperm := pickOne_cons_perm l r hne
    have hnd' : ((pickOne l r).1.1 :: (pickOne l r).1.2).Nodup := hperm.nodup_iff.mp hnd
    have hndrest : (pickOne l r).1.2.Nodup := hnd'.of_cons
    have hkrest : k ≤ (pickOne l r).1.2.length := by
      have := hperm.length_eq
      simp at this
      omega
    obtain ⟨ihnd, ihsub⟩ := ih (pickOne l r).1.2 (pickOne l r).2 hkrest hndrest
    constructor
    · simp only [sampleWR]
      refine ihnd.cons ?_
      intro hmem
      have : (pickOne l r).1.1 ∈ (pickOne l r).1.2 := ihsub _ hmem
      exact (List.nodup_cons.mp hnd').1 this
    · intro u hu
      simp only [sampleWR] at hu
      rcases List.mem_cons.mp hu with h | h
      · subst h
        exact hperm.mem_iff.mpr (List.mem_cons_self _ _)
      · exact hperm.mem_iff.mpr (List.mem_cons_of_mem _ (ihsub _ h))

/-! ### Basic graph-operation lemmas -/

theorem hasNode_iff (g : Graph) (v : Nat) : g.hasNode v = true ↔ v ∈ g.nodeIds := by
  simp [Graph.hasNode, Graph.nodeIds, List.any_eq_true, List.mem_map]

theorem add_node_fresh (g : Graph) (v : Nat) (c : ℤ) (hv : v ∉ g.nodeIds) :
    (g.add_node v c).nodes = g.nodes ++ [(v, c)] ∧
    (g.add_node v c).edges = g.edges := by
  have h : g.hasNode v = false := by
    rcases Bool.eq_false_or_eq_true (g.hasNode v) with h | h
    · exact absurd ((hasNode_iff g v).mp h) hv
    · exact h
  simp [Graph.add_node, h]

theorem hasEdge_iff (g : Graph) (a b : Nat) :
    g.hasEdge a b = true ↔ (a, b) ∈ g.edges ∨ (b, a) ∈ g.edges := by
  simp only [Graph.hasEdge, List.any_eq_true, Bool.or_eq_true, Bool.and_eq_true,
    beq_iff_eq]
  constructor
  · rintro ⟨e, he, ⟨h1, h2⟩ | ⟨h1, h2⟩⟩
    · left
      have : e = (a, b) := Prod.ext h1 h2
      rwa [this] at he
    · right
      have : e = (b, a) := Prod.ext h1 h2
      rwa [this] at he
  · rintro (h | h)
    · exact ⟨(a, b), h, Or.inl ⟨rfl, rfl⟩⟩
    · exact ⟨(b, a), h, Or.inr ⟨rfl, rfl⟩⟩

theorem add_edge_present (g : Graph) (a b : Nat) (ha : a ∈ g.nodeIds)
    (hb : b ∈ g.nodeIds) :
    (g.add_edge a b).nodes = g.nodes ∧
    (g.add_edge a b).edges =
      (if g.hasEdge a b then g.edges else g.edges ++ [(a, b)]) := by
  have ha' : g.hasNode a = true := (hasNode_iff g a).mpr ha
  have hb' : g.hasNode b = true := (hasNode_iff g b).mpr hb
  simp only [Graph.add_edge, ha', hb', if_true]
  by_cases h : g.hasEdge a b = true
  · simp [h]
  · simp [h]

theorem addEdgesFrom_spec (v : Nat) :
    ∀ (us : List Nat) (g : Graph),
      v ∈ g.nodeIds → (∀ u ∈ us, u ∈ g.nodeIds) → us.Nodup → v ∉ us →
      (∀ e ∈ g.edges, e.1 = v → e.2 ∉ us) → (∀ e ∈ g.edges, e.2 ≠ v) →
      (addEdgesFrom g v us).nodes = g.nodes ∧
      (addEdgesFrom g v us).edges = g.edges ++ us.map (fun u => (v, u)) := by
  intro us
  induction us with
  | nil =>
    intro g _ _ _ _ _ _
    simp [addEdgesFrom]
  | cons u us ih =>
    intro g hv hsub hnd hvus hfst hsnd
    have hu : u ∈ g.nodeIds := hsub u (List.mem_cons_self _ _)
    have hnew : g.hasEdge v u = false := by
      rcases Bool.eq_false_or_eq_true (g.hasEdge v u) with h | h
      · exfalso
        rcases (hasEdge_iff g v u).mp h with hm | hm
        · exact hfst (v, u) hm rfl (List.mem_cons_self _ _)
        · exact hsnd (u, v) hm rfl
      · exact h
    obtain ⟨hn, he⟩ := add_edge_present g v u hv hu
    rw [hnew] at he
    simp only [Bool.false_eq_true, if_false] at he
    have hids : (g.add_edge v u).nodeIds = g.nodeIds := by
      simp [Graph.nodeIds, hn]
    simp only [addEdgesFrom]
    obtain ⟨ihn, ihe⟩ := ih (g.add_edge v u)
      (by rw [hids]; exact hv)
      (by intro x hx; rw [hids]; exact hsub x (List.mem_cons_of_mem _ hx))
      hnd.of_cons
      (fun h => hvus (List.mem_cons_of_mem _ h))
      (by
        intro e hee h1
        rw [he] at hee
        rcases List.mem_append.mp hee with h | h
        · intro hmem
          exact hfst e h h1 (List.mem_cons_of_mem _ hmem)
        · have : e = (v, u) := by simpa using h
          rw [this]
          exact (List.nodup_cons.mp hnd).1)
      (by
        intro e hee
        rw [he] at hee
        rcases List.mem_append.mp hee with h | h
        · exact hsnd e h
        · have : e = (v, u) := by simpa using h
          rw [this]
          intro hc
          exact hvus (by rw [← hc]; exact List.mem_cons_self _ _))
    refine ⟨by rw [ihn, hn], ?_⟩
    rw [ihe, he]
    simp

/-! ### Inversion lemmas for the random draws -/

theorem get_color_ok {ratios : List ℚ} {r : Rng} {col : ℤ} {r' : Rng}
    (h : get_color ratios r = .ok (col, r')) : colOk ratios col := by
  by_cases hp : probOk ratios = true
  · have hsum : ratios.sum = 1 := by
      have := (Bool.and_eq_true _ _).mp hp
      exact of_decide_eq_true this.2
    have hnonneg : ∀ p ∈ ratios, 0 ≤ p := by
      have := (Bool.and_eq_true _ _).mp hp
      intro p hmem
      exact of_decide_eq_true (List.all_eq_true.mp this.1 p hmem)
    have hne : posClasses ratios ≠ [] := by
      intro hempty
      simp only [posClasses] at hempty
      have hfilter := List.map_eq_nil_iff.mp hempty
      have hzero : ∀ p ∈ ratios, p = 0 := by
        intro p hmem
        obtain ⟨k, hk, rfl⟩ := List.mem_iff_getElem.mp hmem
        have hnotmem : (k : Nat) ∉ (List.range ratios.length).filter
            (fun k => decide (0 < ratios.getD k 0)) := by
          rw [hfilter]
          exact List.not_mem_nil _
        have h2 : ratios.getD k 0 = ratios[k] := by
          simp [List.getD_eq_getElem?_getD, List.getElem?_eq_getElem hk]
        by_contra hpz
        apply hnotmem
        rw [List.mem_filter]
        refine ⟨List.mem_range.mpr hk, decide_eq_true ?_⟩
        rw [h2]
        exact lt_of_le_of_ne (hnonneg _ (List.getElem_mem hk)) (Ne.symm hpz)
      rw [List.sum_eq_zero hzero] at hsum
      exact absurd hsum (by norm_num)
    have hlen : 0 < (posClasses ratios).length := List.length_pos.mpr hne
    have hidx : r.next.1 % (posClasses ratios).length < (posClasses ratios).length :=
      Nat.mod_lt _ hlen
    have hcol : col = (posClasses ratios).getD
        (r.next.1 % (posClasses ratios).length) 0 := by
      simp only [get_color, hp, if_true] at h
      exact (congrArg Prod.fst (Except.ok.inj h)).symm
    have hmem : col ∈ posClasses ratios := by
      rw [hcol]
      have : (posClasses ratios).getD (r.next.1 % (posClasses ratios).length) 0 =
          (posClasses ratios)[r.next.1 % (posClasses ratios).length] := by
        simp [List.getD_eq_getElem?_getD, List.getElem?_eq_getElem hidx]
      rw [this]
      exact List.getElem_mem hidx
    simp only [posClasses, List.mem_map, List.mem_filter, List.mem_range] at hmem
    obtain ⟨k, ⟨hk, hkpos⟩, hcoleq⟩ := hmem
    rw [Int.ofNat_eq_coe] at hcoleq
    have h3 : 0 < ratios.getD k 0 := of_decide_eq_true hkpos
    refine ⟨by omega, by omega, ?_⟩
    have hk' : (col - 1).toNat = k := by omega
    rw [hk']
    exact h3
  · simp only [get_color, hp] at h
    simp at h

theorem get_neighbours_ok {g : Graph} {m : Nat} {col : ℤ} {hom expo : ℚ}
    {ratios : List ℚ} {w : ℚ} {r : Rng} {us : List Nat} {r' : Rng}
    (h : get_neighbours g m col hom expo ratios w r = .ok (us, r'))
    (hnd : g.nodeIds.Nodup) :
    us.Nodup ∧ us.length = m ∧ (∀ u ∈ us, u ∈ g.nodeIds) ∧
    (∀ u ∈ us, attach_weight g col hom expo ratios w u ≠ 0) ∧
    g.nodeIds ≠ [] := by
  by_cases h1 : g.nodeIds = []
  · simp only [get_neighbours, h1, if_true] at h
    simp at h
  · by_cases h2 : total_weight g col hom expo ratios w = 0
    · simp only [get_neighbours, h1, h2, if_true, if_false] at h
      simp at h
    · by_cases h3 : g.nodeIds.any (fun v =>
        decide (attach_weight g col hom expo ratios w v /
          total_weight g col hom expo ratios w < 0)) = true
      · simp only [get_neighbours, h1, h2, h3] at h
        simp at h
      · set cands := g.nodeIds.filter (fun v =>
          decide (0 < attach_weight g col hom expo ratios w v /
            total_weight g col hom expo ratios w)) with hcands
        by_cases h4 : cands.length < m
        · simp only [get_neighbours, h1, h2, h3, ← hcands, h4] at h
          simp at h
        · have hok : us = (sampleWR m cands r).1 := by
            simp only [get_neighbours, h1, h2, h3, ← hcands, h4, if_false] at h
            exact (congrArg Prod.fst (Except.ok.inj h)).symm
          have hm : m ≤ cands.length := not_lt.mp h4
          have hcnd : cands.Nodup := hnd.filter _
          obtain ⟨hnd', hsub⟩ := sampleWR_sub_nodup m cands r hm hcnd
          subst hok
          refine ⟨hnd', sampleWR_length m cands r, ?_, ?_, h1⟩
          · intro u hu
            exact List.mem_of_mem_filter (hsub u hu)
          · intro u hu
            have := List.of_mem_filter (hsub u hu)
            have hpos : 0 < attach_weight g col hom expo ratios w u /
                total_weight g col hom expo ratios w := of_decide_eq_true this
            intro hzero
            rw [hzero] at hpos
            simp at hpos

/-! ### The growth invariant -/

theorem degree_zero_of_edges (g : Graph)
    (h : ∀ e ∈ g.edges, 0 < e.1 ∧ 0 < e.2) : g.degree 0 = 0 := by
  simp only [Graph.degree, List.length_eq_zero, List.filter_eq_nil_iff]
  intro e he
  obtain ⟨h1, h2⟩ := h e he
  simp only [Bool.or_eq_true, beq_iff_eq, not_or]
  omega

theorem attach_weight_of_degree_zero (g : Graph) (col : ℤ) (hom expo : ℚ)
    (ratios : List ℚ) (w : ℚ) (v : Nat) (h : g.degree v = 0) :
    attach_weight g col hom expo ratios w v = 0 := by
  simp [attach_weight, h]

theorem mem_pathEdges {m0 : Nat} {e : Nat × Nat} :
    e ∈ pathEdges m0 ↔ ∃ j, j < m0 - 2 ∧ e = (j + 2, j + 1) := by
  simp only [pathEdges, List.mem_map, List.mem_range]
  constructor
  · rintro ⟨j, hj, rfl⟩
    exact ⟨j, hj, rfl⟩
  · rintro ⟨j, hj, rfl⟩
    exact ⟨j, hj, rfl⟩

theorem pathEdges_nodup (m0 : Nat) : (pathEdges m0).Nodup := by
  refine List.Nodup.map ?_ (List.nodup_range _)
  intro a b hab
  have := congrArg Prod.fst hab
  simpa using this

theorem pathEdges_succ (v : Nat) (hv : 1 < v) :
    pathEdges (v + 1) = pathEdges v ++ [(v, v - 1)] := by
  have h1 : v + 1 - 2 = (v - 2) + 1 := by omega
  rw [pathEdges, h1, List.range_succ, List.map_append, pathEdges]
  congr 1
  simp only [List.map_cons, List.map_nil]
  have h2 : v - 2 + 2 = v := by omega
  have h3 : v - 2 + 1 = v - 1 := by omega
  rw [h2, h3]

theorem pathEdges_succ_small (v : Nat) (hv : v ≤ 1) :
    pathEdges (v + 1) = pathEdges v := by
  have h1 : v + 1 - 2 = 0 := by omega
  have h2 : v - 2 = 0 := by omega
  simp [pathEdges, h1, h2]

theorem initStep_preserves {ratios : List ℚ} {v : Nat} {g : Graph} {r : Rng}
    {g' : Graph} {r' : Rng} (hI : InvInit ratios v g)
    (hok : initStep ratios g v r = .ok (g', r')) : InvInit ratios (v + 1) g' := by
  obtain ⟨hids, hedges, hcols⟩ := hI
  cases hc : get_color ratios r with
  | error e => simp [initStep, hc] at hok
  | ok p =>
    obtain ⟨c, r1⟩ := p
    have hcol : colOk ratios c := get_color_ok hc
    have hvnot : v ∉ g.nodeIds := by
      rw [hids]
      simp [List.mem_range]
    obtain ⟨hn1, he1⟩ := add_node_fresh g v c hvnot
    have hids1 : (g.add_node v c).nodeIds = List.range (v + 1) := by
      show (g.add_node v c).nodes.map Prod.fst = _
      rw [hn1, List.map_append, List.range_succ]
      simp only [List.map_cons, List.map_nil]
      rw [show List.map Prod.fst g.nodes = g.nodeIds from rfl, hids]
    have hcols1 : ∀ p ∈ (g.add_node v c).nodes, colOk ratios p.2 := by
      rw [hn1]
      intro p hp
      rcases List.mem_append.mp hp with h | h
      · exact hcols p h
      · have : p = (v, c) := by simpa using h
        rw [this]
        exact hcol
    simp only [initStep, hc] at hok
    by_cases hv : v > 1
    · simp only [hv, if_true] at hok
      have hvin : v ∈ (g.add_node v c).nodeIds := by
        rw [hids1]
        simp [List.mem_range]
      have hv1in : v - 1 ∈ (g.add_node v c).nodeIds := by
        rw [hids1]
        simp only [List.mem_range]
        omega
      have hnoedge : (g.add_node v c).hasEdge v (v - 1) = false := by
        rcases Bool.eq_false_or_eq_true ((g.add_node v c).hasEdge v (v - 1)) with h | h
        · exfalso
          rcases (hasEdge_iff _ _ _).mp h with hm | hm
          · rw [he1, hedges] at hm
            obtain ⟨j, hj, hje⟩ := mem_pathEdges.mp hm
            have := congrArg Prod.fst hje
            simp at this
            omega
          · rw [he1, hedges] at hm
            obtain ⟨j, hj, hje⟩ := mem_pathEdges.mp hm
            have h1 := congrArg Prod.fst hje
            have h2 := congrArg Prod.snd hje
            simp at h1 h2
            omega
        · exact h
      obtain ⟨hn2, he2⟩ := add_edge_present (g.add_node v c) v (v - 1) hvin hv1in
      rw [hnoedge] at he2
      simp only [Bool.false_eq_true, if_false] at he2
      have hg' : g' = (g.add_node v c).add_edge v (v - 1) :=
        ((congrArg Prod.fst (Except.ok.inj hok))).symm
      subst hg'
      refine ⟨?_, ?_, ?_⟩
      · show ((g.add_node v c).add_edge v (v - 1)).nodes.map Prod.fst = _
        rw [hn2]
        exact hids1
      · rw [he2, he1, hedges, pathEdges_succ v hv]
      · rw [hn2]
        exact hcols1
    · simp only [hv, if_false] at hok
      have hg' : g' = g.add_node v c :=
        ((congrArg Prod.fst (Except.ok.inj hok))).symm
      subst hg'
      refine ⟨hids1, ?_, hcols1⟩
      rw [he1, hedges, pathEdges_succ_small v (by omega)]

theorem InvInit_to_Inv (m : Nat) {m0 : Nat} {ratios : List ℚ} {g : Graph}
    (h : InvInit ratios m0 g) : Inv m m0 m0 g := by
  obtain ⟨hids, hedges, _⟩ := h
  refine ⟨hids, ?_, ?_, ?_⟩
  · rw [hedges]
    exact pathEdges_nodup m0
  · intro e he
    rw [hedges] at he
    obtain ⟨j, hj, rfl⟩ := mem_pathEdges.mp he
    simp only
    omega
  · intro u h1 h2
    omega

theorem loopFrom_preserves {P : Nat → Graph → Prop}
    {step : Graph → Nat → Rng → Except Err (Graph × Rng)}
    (hstep : ∀ v g r g' r', P v g → step g v r = .ok (g', r') → P (v + 1) g') :
    ∀ (k v : Nat) (g : Graph) (r : Rng) (g' : Graph) (r' : Rng),
      P v g → loopFrom step v k g r = .ok (g', r') → P (v + k) g' := by
  intro k
  induction k with
  | zero =>
    intro v g r g' r' hP hok
    simp only [loopFrom] at hok
    have hg : g = g' := congrArg Prod.fst (Except.ok.inj hok)
    rw [Nat.add_zero, ← hg]
    exact hP
  | succ k ih =>
    intro v g r g' r' hP hok
    simp only [loopFrom] at hok
    cases hs : step g v r with
    | error e => rw [hs] at hok; simp at hok
    | ok p =>
      obtain ⟨g1, r1⟩ := p
      rw [hs] at hok
      have hP1 := hstep v g r g1 r1 hP hs
      have := ih (v + 1) g1 r1 g' r' hP1 hok
      have harith : v + 1 + k = v + (k + 1) := by omega
      rwa [harith] at this

theorem growStep_preserves {m m0 : Nat} {hom expo : ℚ} {ratios : List ℚ}
    {w : ℚ} {v : Nat} {g : Graph} {r : Rng} {g' : Graph} {r' : Rng}
    (hv : m0 ≤ v) (hInv : Inv m m0 v g)
    (hok : growStep m hom expo ratios w g v r = .ok (g', r')) :
    Inv m m0 (v + 1) g' := by
  obtain ⟨hids, hnd, hbounds, hcount⟩ := hInv
  have hidnd : g.nodeIds.Nodup := by
    rw [hids]
    exact List.nodup_range v
  cases hc : get_color ratios r with
  | error e => simp [growStep, hc] at hok
  | ok p =>
    obtain ⟨col, r1⟩ := p
    cases hn : get_neighbours g m col hom expo ratios w r1 with
    | error e => simp [growStep, hc, hn] at hok
    | ok q =>
      obtain ⟨us, r2⟩ := q
      simp only [growStep, hc, hn] at hok
      have hg' : g' = addEdgesFrom (g.add_node v col) v us :=
        ((congrArg Prod.fst (Except.ok.inj hok))).symm
      obtain ⟨usnd, uslen, ussub, uswt, keysne⟩ := get_neighbours_ok hn hidnd
      have hvpos : 0 < v := by
        by_contra hzero
        have : v = 0 := by omega
        rw [this] at hids
        exact keysne (by simpa using hids)
      have uslt : ∀ u ∈ us, u < v := by
        intro u hu
        have := ussub u hu
        rw [hids] at this
        exact List.mem_range.mp this
      have uspos : ∀ u ∈ us, 0 < u := by
        intro u hu
        by_contra hzero
        have hu0 : u = 0 := by omega
        have hdeg : g.degree 0 = 0 := degree_zero_of_edges g
          (fun e he => ⟨(hbounds e he).1, (hbounds e he).2.2.1⟩)
        have := uswt u hu
        rw [hu0] at this
        exact this (attach_weight_of_degree_zero g col hom expo ratios w 0 hdeg)
      have hvnot : v ∉ g.nodeIds := by
        rw [hids]
        simp [List.mem_range]
      obtain ⟨hn1, he1⟩ := add_node_fresh g v col hvnot
      have hids1 : (g.add_node v col).nodeIds = List.range (v + 1) := by
        show (g.add_node v col).nodes.map Prod.fst = _
        rw [hn1, List.map_append, List.range_succ]
        simp only [List.map_cons, List.map_nil]
        rw [show List.map Prod.fst g.nodes = g.nodeIds from rfl, hids]
      obtain ⟨hn2, he2⟩ := addEdgesFrom_spec v us (g.add_node v col)
        (by rw [hids1]; simp [List.mem_range])
        (by
          intro u hu
          rw [hids1]
          simp only [List.mem_range]
          exact lt_trans (uslt u hu) (by omega))
        usnd
        (by
          intro hvus
          exact absurd (uslt v hvus) (by omega))
        (by
          intro e he hfst
          rw [he1] at he
          have := (hbounds e he).2.1
          omega)
        (by
          intro e he
          rw [he1] at he
          have := (hbounds e he).2.2.2
          omega)
      rw [he1] at he2
      rw [hn1] at hn2
      subst hg'
      refine ⟨?_, ?_, ?_, ?_⟩
      · show (addEdgesFrom (g.add_node v col) v us).nodes.map Prod.fst = _
        rw [hn2, ← hn1]
        exact hids1
      · rw [he2]
        rw [List.nodup_append]
        refine ⟨hnd, ?_, ?_⟩
        · refine List.Nodup.map ?_ usnd
          intro a b hab
          simpa using congrArg Prod.snd hab
        · intro e he hem
          obtain ⟨u, hu, rfl⟩ := List.mem_map.mp hem
          have hlt : v < v := (hbounds _ he).2.1
          exact absurd hlt (lt_irrefl v)
      · intro e he
        rw [he2] at he
        rcases List.mem_append.mp he with h | h
        · have := hbounds e h
          omega
        · obtain ⟨u, hu, rfl⟩ := List.mem_map.mp h
          have h1 := uspos u hu
          have h2 := uslt u hu
          exact ⟨hvpos, Nat.lt_succ_self v, h1, lt_trans h2 (Nat.lt_succ_self v)⟩
      · intro u hu1 hu2
        rw [he2, List.filter_append]
        by_cases huv : u = v
        · subst huv
          have hold : g.edges.filter (fun e => e.1 == u) = [] := by
            rw [List.filter_eq_nil_iff]
            intro e he
            have := (hbounds e he).2.1
            simp only [beq_iff_eq]
            omega
          have hnew : (us.map (fun u' => (u, u'))).filter (fun e => e.1 == u) =
              us.map (fun u' => (u, u')) := by
            rw [List.filter_eq_self]
            intro e he
            obtain ⟨u', _, rfl⟩ := List.mem_map.mp he
            simp
          rw [hold, hnew]
          simp [uslen]
        · have hnew : (us.map (fun u' => (v, u'))).filter (fun e => e.1 == u) = [] := by
            rw [List.filter_eq_nil_iff]
            intro e he
            obtain ⟨u', _, rfl⟩ := List.mem_map.mp he
            simp only [beq_iff_eq]
            omega
          rw [hnew]
          simp only [List.append_nil]
          exact hcount u hu1 (by omega)

/-- Success inversion for `generate_graph`: a returned graph satisfies the
growth invariant at index `m0 + (n - m0)`. -/
theorem generate_graph_ok {n m m0 : Nat} {hom : ℚ} {ratios : List ℚ}
    {expo w : ℚ} {r : Rng} {g : Graph} {r' : Rng}
    (h : generate_graph n m m0 hom ratios expo w r = .ok (some g, r')) :
    m ≤ n ∧ Inv m m0 (m0 + (n - m0)) g := by
  by_cases hmn : n < m
  · simp only [generate_graph, hmn, if_true] at h
    simp at h
  · simp only [generate_graph, hmn, if_false] at h
    refine ⟨by omega, ?_⟩
    cases hi : init_graph ratios m0 r with
    | error e =>
      simp only [hi] at h
      simp at h
    | ok p =>
      obtain ⟨g0, r1⟩ := p
      simp only [hi] at h
      have hbase : InvInit ratios 0 (⟨[], []⟩ : Graph) := by
        refine ⟨rfl, rfl, ?_⟩
        intro p hp
        simp at hp
      have hinit : InvInit ratios (0 + m0) g0 :=
        loopFrom_preserves (P := fun v g => InvInit ratios v g)
          (fun v g r g' r' hP hok => initStep_preserves hP hok)
          m0 0 ⟨[], []⟩ r g0 r1 hbase hi
      rw [Nat.zero_add] at hinit
      have hInv0 : Inv m m0 m0 g0 := InvInit_to_Inv m hinit
      cases hl : loopFrom (growStep m hom expo ratios w) m0 (n - m0) g0 r1 with
      | error e =>
        simp only [hl] at h
        simp at h
      | ok q =>
        obtain ⟨g2, r2⟩ := q
        simp only [hl] at h
        have hg : g2 = g := by
          have := congrArg Prod.fst (Except.ok.inj h)
          simpa using this
        subst hg
        have := loopFrom_preserves
          (P := fun v gg => m0 ≤ v ∧ Inv m m0 v gg)
          (fun v gg rr gg' rr' hP hok =>
            ⟨by omega, growStep_preserves hP.1 hP.2 hok⟩)
          (n - m0) m0 g0 r1 g2 r2 ⟨le_refl m0, hInv0⟩ hl
        exact this.2

/-- Success inversion for the initialization phase alone. -/
theorem init_graph_ok {ratios : List ℚ} {m0 : Nat} {r : Rng} {g : Graph}
    {r' : Rng} (h : init_graph ratios m0 r = .ok (g, r')) :
    InvInit ratios m0 g := by
  rw [init_graph] at h
  have hbase : InvInit ratios 0 (⟨[], []⟩ : Graph) := by
    refine ⟨rfl, rfl, ?_⟩
    intro p hp
    simp at hp
  have := loopFrom_preserves (P := fun v g => InvInit ratios v g)
    (fun v g r g' r' hP hok => initStep_preserves hP hok)
    m0 0 ⟨[], []⟩ r g r' hbase h
  rwa [Nat.zero_add] at this

/-! ### Claim theorems -/

/-- C9: for every class-ratio vector of even length and every pair of class
labels, `color_weight` is symmetric in its two class arguments. -/
theorem c9_color_weight_symm (a b : ℤ) (expo : ℚ) (ratios : List ℚ) (w : ℚ)
    (heven : Even ratios.length) :
    color_weight a b expo ratios w = color_weight b a expo ratios w := by
  simp only [color_weight, abs_sub_comm a b]

theorem c9_witness :
    Even ([(1 : ℚ)/2, 1/2] : List ℚ).length ∧
    color_weight 1 2 2 [1/2, 1/2] 1 = color_weight 2 1 2 [1/2, 1/2] 1 :=
  ⟨by decide, c9_color_weight_symm 1 2 2 [1/2, 1/2] 1 (by decide)⟩

/-- C8: with `class_ratio = [0.5, 0.5]` (two classes, colors 1 and 2), the
attachment weight of an existing node collapses to exactly two cases:
`degree * h` when the node bears the new node's class, and
`degree * (1 - h) * opposite_side_class_weight` otherwise — with no
intermediate decay term, since an unequal pair of the two colors always has
circular distance 1 = c / 2. -/
theorem c8_two_class_weights (g : Graph) (v : Nat) (hom expo w : ℚ) (col : ℤ)
    (hcol : col = 1 ∨ col = 2) (hv : g.colorOf v = 1 ∨ g.colorOf v = 2) :
    attach_weight g col hom expo [1/2, 1/2] w v =
      (if g.colorOf v = col then (g.degree v : ℚ) * hom
       else (g.degree v : ℚ) * ((1 - hom) * w)) := by
  rcases hcol with rfl | rfl <;> rcases hv with h | h <;>
    simp [attach_weight, color_weight, h]

theorem c8_witness :
    ((1 : ℤ) = 1 ∨ (1 : ℤ) = 2) ∧
    ((Graph.mk [(0, 2)] []).colorOf 0 = 1 ∨ (Graph.mk [(0, 2)] []).colorOf 0 = 2) ∧
    attach_weight ⟨[(0, 2)], []⟩ 1 (1/3) 2 [1/2, 1/2] (1/4) 0 =
      (if (Graph.mk [(0, 2)] []).colorOf 0 = 1
       then ((Graph.mk [(0, 2)] []).degree 0 : ℚ) * (1/3)
       else ((Graph.mk [(0, 2)] []).degree 0 : ℚ) * ((1 - 1/3) * (1/4))) :=
  ⟨Or.inl rfl, by right; rfl,
    c8_two_class_weights ⟨[(0, 2)], []⟩ 0 (1/3) 2 (1/4) 1 (Or.inl rfl) (by right; rfl)⟩

/-- C7: both split generators are deterministic given the seed and the state
of the pseudo-random generator: equal seeds (and equal generator states)
yield identical train/val/test triples. -/
theorem c7_deterministic (prng : Nat → Nat → Nat) (ratios : List ℚ)
    (masked : List ℤ) (total s1 s2 : Nat) (labels : List ℤ) (c : Nat)
    (r1 r2 : Rng) (hs : s1 = s2) (hr : r1 = r2) :
    get_order prng ratios masked total s1 = get_order prng ratios masked total s2 ∧
    random_disassortative_splits labels c r1 =
      random_disassortative_splits labels c r2 := by
  subst hs
  subst hr
  exact ⟨rfl, rfl⟩

theorem c7_witness :
    get_order prng0 [60, 20, 20] [0, 1, 2] 3 5 =
      get_order prng0 [60, 20, 20] [0, 1, 2] 3 5 ∧
    random_disassortative_splits [0, 1] 2 rng0 =
      random_disassortative_splits [0, 1] 2 rng0 :=
  c7_deterministic prng0 [60, 20, 20] [0, 1, 2] 3 5 5 [0, 1] 2 rng0 rng0 rfl rfl

/-- C6: `get_neighbours` divides by the weight sum with no guard: whenever
the total weight is positive the normalization succeeds (no
ZeroDivisionError), but inputs allowed by the preconditions — `h = 1` with
no same-class existing node, or a graph whose nodes all have degree 0 —
make the total weight 0 and the call fail instead of returning `m`
neighbours. -/
theorem c6_zero_norm :
    (∀ (g : Graph) (m : Nat) (col : ℤ) (hom expo : ℚ) (ratios : List ℚ)
      (w : ℚ) (r : Rng), 0 < total_weight g col hom expo ratios w →
      get_neighbours g m col hom expo ratios w r ≠ .error .zeroDiv) ∧
    (total_weight ⟨[(0, 2), (1, 2)], [(1, 0)]⟩ 1 1 2 [1/2, 1/2] 1 = 0 ∧
      get_neighbours ⟨[(0, 2), (1, 2)], [(1, 0)]⟩ 1 1 1 2 [1/2, 1/2] 1 rng0 =
        .error .zeroDiv) ∧
    (total_weight ⟨[(0, 1), (1, 1)], []⟩ 1 (1/2) 2 [1/2, 1/2] 1 = 0 ∧
      get_neighbours ⟨[(0, 1), (1, 1)], []⟩ 1 1 (1/2) 2 [1/2, 1/2] 1 rng0 =
        .error .zeroDiv) := by
  refine ⟨?_, ⟨by decide, rfl⟩, ⟨by decide, rfl⟩⟩
  intro g m col hom expo ratios w r hpos heq
  have hk : g.nodeIds ≠ [] := by
    intro hnil
    rw [total_weight, hnil] at hpos
    simp at hpos
  rw [get_neighbours, if_neg hk, if_neg (ne_of_gt hpos)] at heq
  by_cases h3 : (g.nodeIds.any fun v =>
      decide (attach_weight g col hom expo ratios w v /
        total_weight g col hom expo ratios w < 0)) = true
  · rw [if_pos h3] at heq
    simp at heq
  · rw [if_neg h3] at heq
    by_cases h4 : (g.nodeIds.filter fun v =>
        decide (0 < attach_weight g col hom expo ratios w v /
          total_weight g col hom expo ratios w)).length < m
    · rw [if_pos h4] at heq
      simp at heq
    · rw [if_neg h4] at heq
      simp at heq

theorem c6_witness :
    0 < total_weight ⟨[(0, 1), (1, 1)], [(1, 0)]⟩ 1 (1/2) 2 [1/2, 1/2] 1 ∧
    get_neighbours ⟨[(0, 1), (1, 1)], [(1, 0)]⟩ 2 1 (1/2) 2 [1/2, 1/2] 1 rng0 ≠
      .error .zeroDiv :=
  ⟨by decide,
    c6_zero_norm.1 ⟨[(0, 1), (1, 1)], [(1, 0)]⟩ 2 1 (1/2) 2 [1/2, 1/2] 1 rng0
      (by decide)⟩

/-- C3 (amended): `generate_graph` returns Python `None` exactly when
`m > n`; no other input makes it return `None`.  When `m ≤ n` the call
either returns a graph or raises an exception (for example a
ZeroDivisionError when every attachment weight is zero), so "returns a
graph for every `m ≤ n`" does not hold as stated. -/
theorem c3_none_iff (n m m0 : Nat) (hom : ℚ) (ratios : List ℚ) (expo w : ℚ)
    (r : Rng) :
    isNoneReturn (generate_graph n m m0 hom ratios expo w r) = true ↔ n < m := by
  constructor
  · intro h
    by_contra hmn
    rw [generate_graph, if_neg hmn] at h
    cases hi : init_graph ratios m0 r with
    | error e =>
      simp only [hi] at h
      simp [isNoneReturn] at h
    | ok p =>
      obtain ⟨g0, r1⟩ := p
      simp only [hi] at h
      cases hl : loopFrom (growStep m hom expo ratios w) m0 (n - m0) g0 r1 with
      | error e =>
        simp only [hl] at h
        simp [isNoneReturn] at h
      | ok q =>
        obtain ⟨g2, r2⟩ := q
        simp only [hl] at h
        simp [isNoneReturn] at h
  · intro h
    rw [generate_graph, if_pos h]
    rfl

/-- C3 counterexample: a call with `m ≤ n` (here `m = 1 ≤ 3 = n`, `m0 = 2`)
raises a ZeroDivisionError instead of returning a graph object. -/
theorem c3_cx :
    (1 : Nat) ≤ 3 ∧
    generate_graph 3 1 2 (1/2) [1/2, 1/2] 2 1 rng0 = .error .zeroDiv :=
  ⟨by decide, rfl⟩

/-- C5: in every graph successfully returned by `generate_graph` with
`m0 ≥ 2`, node 0 is isolated: initialization adds edges `(v, v-1)` only for
`v ≥ 2`, and since every attachment weight is proportional to the
candidate's current degree, a degree-0 node has weight 0 and is never
selected, so node 0 keeps degree 0 in the final graph. -/
theorem c5_node_zero_isolated {n m m0 : Nat} {hom : ℚ} {ratios : List ℚ}
    {expo w : ℚ} {r : Rng} {g : Graph} {r' : Rng} (hm0 : 2 ≤ m0)
    (h : generate_graph n m m0 hom ratios expo w r = .ok (some g, r')) :
    g.degree 0 = 0 ∧
    (∀ (g' : Graph) (col : ℤ), g'.degree 0 = 0 →
      attach_weight g' col hom expo ratios w 0 = 0) := by
  obtain ⟨-, -, hbounds, -⟩ := (generate_graph_ok h).2
  refine ⟨?_, ?_⟩
  · exact degree_zero_of_edges g
      (fun e he => ⟨(hbounds e he).1, (hbounds e he).2.2.1⟩)
  · intro g' col hdeg
    exact attach_weight_of_degree_zero g' col hom expo ratios w 0 hdeg

theorem c5_witness :
    (⟨[(0, 1), (1, 1), (2, 1), (3, 1)], [(2, 1), (3, 1)]⟩ : Graph).degree 0 = 0 :=
  (@c5_node_zero_isolated 4 1 3 (1/2) [1/2, 1/2] 2 1 rng0
    ⟨[(0, 1), (1, 1), (2, 1), (3, 1)], [(2, 1), (3, 1)]⟩ ⟨rng0.seq, 5⟩
    (by decide)
    (show generate_graph 4 1 3 (1/2) [1/2, 1/2] 2 1 rng0 =
      .ok (some ⟨[(0, 1), (1, 1), (2, 1), (3, 1)], [(2, 1), (3, 1)]⟩,
        ⟨rng0.seq, 5⟩) from rfl)).1

/-- C4: in every graph returned by `generate_graph`, each stored edge joins
two valid node indices (both below the final node count) and the edge list
has no duplicates; and each successful `get_neighbours` call returns `m`
distinct neighbours (sampling without replacement), all of them nodes that
already exist in the graph being extended — so a new node only attaches to
previously created nodes and no duplicate edge arises within one growth
step. -/
theorem c4_edge_validity :
    (∀ (n m m0 : Nat) (hom : ℚ) (ratios : List ℚ) (expo w : ℚ) (r : Rng)
      (g : Graph) (r' : Rng),
      generate_graph n m m0 hom ratios expo w r = .ok (some g, r') →
      g.edges.Nodup ∧
      ∀ e ∈ g.edges, e.1 < g.nodes.length ∧ e.2 < g.nodes.length) ∧
    (∀ (g : Graph) (m : Nat) (col : ℤ) (hom expo : ℚ) (ratios : List ℚ)
      (w : ℚ) (r : Rng) (us : List Nat) (r' : Rng), g.nodeIds.Nodup →
      get_neighbours g m col hom expo ratios w r = .ok (us, r') →
      us.Nodup ∧ us.length = m ∧ ∀ u ∈ us, u ∈ g.nodeIds) := by
  constructor
  · intro n m m0 hom ratios expo w r g r' h
    obtain ⟨hids, hnd, hbounds, -⟩ := (generate_graph_ok h).2
    have hlen : g.nodes.length = m0 + (n - m0) := by
      have h1 : g.nodeIds.length = m0 + (n - m0) := by
        rw [hids, List.length_range]
      simpa [Graph.nodeIds] using h1
    refine ⟨hnd, ?_⟩
    intro e he
    rw [hlen]
    exact ⟨(hbounds e he).2.1, (hbounds e he).2.2.2⟩
  · intro g m col hom expo ratios w r us r' hnd h
    obtain ⟨h1, h2, h3, -, -⟩ := get_neighbours_ok h hnd
    exact ⟨h1, h2, h3⟩

theorem c4_witness :
    ((⟨[(0, 1), (1, 1), (2, 1), (3, 1)], [(2, 1), (3, 1)]⟩ : Graph).edges.Nodup ∧
      ∀ e ∈ (⟨[(0, 1), (1, 1), (2, 1), (3, 1)], [(2, 1), (3, 1)]⟩ : Graph).edges,
        e.1 < 4 ∧ e.2 < 4) ∧
    (([1] : List Nat).Nodup ∧ ([1] : List Nat).length = 1 ∧
      ∀ u ∈ ([1] : List Nat),
        u ∈ (⟨[(0, 1), (1, 1), (2, 1)], [(2, 1)]⟩ : Graph).nodeIds) :=
  ⟨(c4_edge_validity.1 4 1 3 (1/2) [1/2, 1/2] 2 1 rng0
      ⟨[(0, 1), (1, 1), (2, 1), (3, 1)], [(2, 1), (3, 1)]⟩ ⟨rng0.seq, 5⟩
      (show generate_graph 4 1 3 (1/2) [1/2, 1/2] 2 1 rng0 =
        .ok (some ⟨[(0, 1), (1, 1), (2, 1), (3, 1)], [(2, 1), (3, 1)]⟩,
          ⟨rng0.seq, 5⟩) from rfl)),
    (c4_edge_validity.2 ⟨[(0, 1), (1, 1), (2, 1)], [(2, 1)]⟩ 1 1 (1/2) 2
      [1/2, 1/2] 1 rng0 [1] ⟨rng0.seq, 1⟩ (by decide)
      (show get_neighbours ⟨[(0, 1), (1, 1), (2, 1)], [(2, 1)]⟩ 1 1 (1/2) 2
        [1/2, 1/2] 1 rng0 = .ok ([1], ⟨rng0.seq, 1⟩) from rfl))⟩

/-- C2: a successful `generate_graph(n = 50, m = 6, m0 = 40, ...)` call
returns a graph with exactly 50 nodes in which every grown node
`v ∈ [40, 50)` owns exactly 6 stored edges `(v, _)` — the distinct edges
added at its creation step (later edges incident to `v` are stored as
`(v', v)` with `v' > v`) — so its final degree is at least 6. -/
theorem c2_fifty_nodes {hom : ℚ} {ratios : List ℚ} {expo w : ℚ} {r : Rng}
    {g : Graph} {r' : Rng}
    (h : generate_graph 50 6 40 hom ratios expo w r = .ok (some g, r')) :
    g.nodes.length = 50 ∧
    ∀ v : Nat, 40 ≤ v → v < 50 →
      (g.edges.filter (fun e => e.1 == v)).length = 6 ∧
      (g.edges.filter (fun e => e.1 == v)).Nodup ∧
      6 ≤ g.degree v := by
  obtain ⟨hids, hnd, hbounds, hcount⟩ := (generate_graph_ok h).2
  constructor
  · have h1 : g.nodeIds.length = 40 + (50 - 40) := by
      rw [hids, List.length_range]
    simpa [Graph.nodeIds] using h1
  · intro v h1 h2
    have hc := hcount v h1 (by omega)
    refine ⟨hc, hnd.filter _, ?_⟩
    have hsub : List.Sublist (g.edges.filter (fun e => e.1 == v))
        (g.edges.filter (fun e => e.1 == v || e.2 == v)) := by
      apply List.monotone_filter_right
      intro e he
      simp only [Bool.or_eq_true]
      exact Or.inl he
    have := hsub.length_le
    rw [hc] at this
    exact this

set_option maxRecDepth 100000 in
theorem c2_witness : g50.nodes.length = 50 :=
  (c2_fifty_nodes
    (show generate_graph 50 6 40 (1/2) [1/2, 1/2] 2 1 rng0 =
      .ok (some g50, ⟨rng0.seq, 110⟩) from rfl)).1

/-- C10 (amended): initialization creates `m0` nodes whose colors are legal
weighted draws from the class distribution and connects `v` to `v - 1` for
every `v` from 2 to `m0 - 1`; consequently, for `m0 ≥ 3` every initial node
except node 0 has at least one edge (for `m0 = 2` node 1 is isolated too,
since no initialization edge exists). -/
theorem c10_init_path (ratios : List ℚ) (m0 : Nat) (r : Rng) (g : Graph)
    (r' : Rng) (h : init_graph ratios m0 r = .ok (g, r')) :
    g.nodeIds = List.range m0 ∧
    g.edges = pathEdges m0 ∧
    (∀ p ∈ g.nodes, colOk ratios p.2) ∧
    (3 ≤ m0 → ∀ u, 1 ≤ u → u < m0 → 1 ≤ g.degree u) := by
  obtain ⟨hids, hedges, hcols⟩ := init_graph_ok h
  refine ⟨hids, hedges, hcols, ?_⟩
  intro h3 u h1 h2
  have hdeg : ∀ e ∈ g.edges, (e.1 == u || e.2 == u) = true → 1 ≤ g.degree u := by
    intro e he hp
    have hmem : e ∈ g.edges.filter (fun e => e.1 == u || e.2 == u) :=
      List.mem_filter.mpr ⟨he, hp⟩
    exact List.length_pos.mpr (List.ne_nil_of_mem hmem)
  by_cases hu : 2 ≤ u
  · have hedge : (u, u - 1) ∈ g.edges := by
      rw [hedges, mem_pathEdges]
      refine ⟨u - 2, by omega, ?_⟩
      have e1 : u - 2 + 2 = u := by omega
      have e2 : u - 2 + 1 = u - 1 := by omega
      rw [e1, e2]
    exact hdeg (u, u - 1) hedge (by simp)
  · have hu1 : u = 1 := by omega
    subst hu1
    have hedge : (2, 1) ∈ g.edges := by
      rw [hedges, mem_pathEdges]
      exact ⟨0, by omega, rfl⟩
    exact hdeg (2, 1) hedge (by simp)

/-- C10 counterexample: with `m0 = 2` the initialization adds no edge at
all, so initial node 1 — which is not node 0 — ends initialization with
degree 0, contradicting "every initial node has at least one edge except
node 0" as stated. -/
theorem c10_cx :
    init_graph [1/2, 1/2] 2 rng0 =
      .ok (⟨[(0, 1), (1, 1)], []⟩, ⟨rng0.seq, 2⟩) ∧
    (⟨[(0, 1), (1, 1)], []⟩ : Graph).degree 1 = 0 ∧
    (1 : Nat) ∈ (⟨[(0, 1), (1, 1)], []⟩ : Graph).nodeIds ∧ (1 : Nat) ≠ 0 :=
  ⟨rfl, rfl, by decide, by decide⟩

theorem c10_witness :
    1 ≤ (⟨[(0, 1), (1, 1), (2, 1), (3, 1)], [(2, 1), (3, 2)]⟩ : Graph).degree 1 :=
  (c10_init_path [1/2, 1/2] 4 rng0
    ⟨[(0, 1), (1, 1), (2, 1), (3, 1)], [(2, 1), (3, 2)]⟩ ⟨rng0.seq, 4⟩
    (show init_graph [1/2, 1/2] 4 rng0 =
      .ok (⟨[(0, 1), (1, 1), (2, 1), (3, 1)], [(2, 1), (3, 2)]⟩,
        ⟨rng0.seq, 4⟩) from rfl)).2.2.2 (by decide) 1 (by decide) (by decide)

/-- C1 (code bug): `get_order`'s asserts build Python sets of `torch.Tensor`
objects, which hash by identity, so they can never fail; with the ratio list
`[60, -20, 60]` the val cut index falls below the train cut index and the
returned train and test sets overlap (here they share the indices 8 and 3),
contradicting the asserted pairwise disjointness the claim relies on. -/
theorem c1_get_order_overlap :
    get_order prng0 [60, -20, 60] [0, 1, 2, 3, 4, 5, 6, 7, 8, 9] 10 7 =
      .ok ([7, 9, 1, 4, 8, 3], [], [8, 3, 2, 6, 5, 0]) ∧
    (8 : ℤ) ∈ ([7, 9, 1, 4, 8, 3] : List ℤ) ∧
    (8 : ℤ) ∈ ([8, 3, 2, 6, 5, 0] : List ℤ) ∧
    (3 : ℤ) ∈ ([7, 9, 1, 4, 8, 3] : List ℤ) ∧
    (3 : ℤ) ∈ ([8, 3, 2, 6, 5, 0] : List ℤ) :=
  ⟨rfl, by decide, by decide, by decide, by decide⟩

end Mixhop
